import Mathlib

/-!
Verification of the two plugin modules and the menu-generation script of
this repository, via a shallow embedding of their logic in Lean.

Part 1: `AlCaRecoTriggerBitsRcdUpdate` (src/CondTools/HLT/src/AlCaRecoTriggerBitsRcdUpdate.cc),
a module that updates a string-to-string trigger map (`AlCaRecoTriggerBits::m_alcarecoToTrig`,
a `std::map<std::string, std::string>`) by removal, insertion and rename, then
writes it once to the conditions database.

Part 2: `HLTDisplacedEgammaFilter` (src/unnamed/part_000, C++ section), an HLT
filter that applies a sequence of numeric cuts (eta range, cluster second-moment
shape, seed-crystal timing, nearby-track veto) to a candidate list.

Part 3: the shell script (src/unnamed/part_000, lines 1-11) that regenerates
HLT tables by sourcing subtables.sh and calling createSubtables.
-/

namespace AlCaReco

/-- The trigger map `std::map<std::string,std::string>`, embedded as an
association list with unique keys (the `std::map` invariant); operations below
preserve key uniqueness. -/
abbrev TriggerMap := List (String × String)

/-- `triggerMap.find(k) != triggerMap.end()`: key membership test. -/
def tmContains (m : TriggerMap) (k : String) : Bool :=
  m.any (fun p => p.1 == k)

/-- `triggerMap.erase(k)`: remove the entry with key `k` (all entries with that
key; with unique keys there is at most one). -/
def tmErase (m : TriggerMap) (k : String) : TriggerMap :=
  m.filter (fun p => !(p.1 == k))

/-- `triggerMap[k]` read on a present key: the mapped value (empty string when
absent, mirroring default construction by `operator[]`). -/
def tmGet (m : TriggerMap) (k : String) : String :=
  match m.find? (fun p => p.1 == k) with
  | some p => p.2
  | none => ""

/-- `triggerMap[k] = v`: insert-or-assign. If `k` is present its value is
overwritten in place; otherwise a new entry is added. -/
def tmSet (m : TriggerMap) (k v : String) : TriggerMap :=
  if tmContains m k then
    m.map (fun p => if p.1 == k then (p.1, v) else p)
  else
    m ++ [(k, v)]

/-- One entry of the `triggerListsAdd` VPSet: a `listName` string and the
`hltPaths` vstring. -/
structure TriggerListAdd where
  listName : String
  hltPaths : List String
deriving Repr, DecidableEq

/-- Modelled from the spec: `AlCaRecoTriggerBits::compose` (CondFormats, not
under src/) merges the path names into one string, to be decoded when needed;
the merge joins the paths with the ";" delimiter. -/
def compose (paths : List String) : String :=
  String.intercalate ";" paths

/-- Configuration of `AlCaRecoTriggerBitsRcdUpdate` read from the ParameterSet:
`firstRunIOV`, `lastRunIOV`, `startEmpty`, `listNamesRemove`,
`triggerListsAdd` and `alcarecoToReplace` (each replace PSet reduced to its
`(oldKey, newKey)` pair, as the `keyPairs` loop of `replaceKeysFromMap` does). -/
structure UpdateConfig where
  firstRunIOV : Nat
  lastRunIOV : Int
  startEmpty : Bool
  listNamesRemove : List String
  triggerListsAdd : List TriggerListAdd
  alcarecoReplace : List (String × String)
deriving Repr

/-- `AlCaRecoTriggerBitsRcdUpdate::removeKeysFromMap`: walk the key list; a
present key is erased, an absent key raises `cms::Exception("BadConfig")`
(the `return false` after the `throw` is unreachable). The result is the
thrown key (`some k`) or `none`, paired with the map as mutated so far
(the map is passed by reference, so erasures before the throw persist). -/
def removeKeysFromMap : List String → TriggerMap → Option String × TriggerMap
  | [], m => (none, m)
  | k :: ks, m =>
    if tmContains m k then
      removeKeysFromMap ks (tmErase m k)
    else
      (some k, m)

/-- `AlCaRecoTriggerBitsRcdUpdate::replaceKeysFromMap`: walk the key pairs; a
present `oldKey` is renamed (value saved, `oldKey` erased, `newKey` assigned),
an absent `oldKey` logs a warning and returns `false` at once. Returns the
`bool` result and the map as mutated so far. -/
def replaceKeysFromMap : List (String × String) → TriggerMap → Bool × TriggerMap
  | [], m => (true, m)
  | p :: ps, m =>
    if tmContains m p.1 then
      replaceKeysFromMap ps (tmSet (tmErase m p.1) p.2 (tmGet m p.1))
    else
      (false, m)

/-- `AlCaRecoTriggerBitsRcdUpdate::addTriggerLists`: for each PSet, merge its
paths and insert under `listName`; a `listName` already in the map raises
`cms::Exception("BadConfig")`. Result: thrown list name or `none`, with the
map as mutated so far. -/
def addTriggerLists : List TriggerListAdd → TriggerMap → Option String × TriggerMap
  | [], m => (none, m)
  | l :: ls, m =>
    let mergedPaths := compose l.hltPaths
    if tmContains m l.listName then
      (some l.listName, m)
    else
      addTriggerLists ls (tmSet m l.listName mergedPaths)

/-- Mutable state of one `AlCaRecoTriggerBitsRcdUpdate` instance across
`analyze` calls: the `nEventCalls_` counter and, as observable history, the
list of maps passed to `writeBitsToDB` (each a `writeOneIOV` call). -/
structure ModState where
  nEventCalls : Nat
  dbWrites : List TriggerMap
deriving Repr

/-- Outcome of one `analyze` call: returned early (second and later calls),
completed (including the DB write), or propagated a `cms::Exception` carrying
the offending key. -/
inductive AnalyzeOutcome where
  | earlyReturn : AnalyzeOutcome
  | done : AnalyzeOutcome
  | threw : String → AnalyzeOutcome
deriving Repr, DecidableEq

/-- `AlCaRecoTriggerBitsRcdUpdate::analyze`. `existing` is the
`AlCaRecoTriggerBits` map read from the EventSetup (used when `startEmpty` is
false). `if (nEventCalls_++ > 0)` tests the old counter value and increments
in both branches; on the first call the module removes keys, adds new lists,
replaces keys (return value ignored) and writes the result to the DB. -/
def analyze (cfg : UpdateConfig) (existing : TriggerMap) (st : ModState) :
    AnalyzeOutcome × ModState :=
  if st.nEventCalls > 0 then
    (AnalyzeOutcome.earlyReturn, { st with nEventCalls := st.nEventCalls + 1 })
  else
    let st1 : ModState := { st with nEventCalls := st.nEventCalls + 1 }
    let start : TriggerMap := if cfg.startEmpty then [] else existing
    match removeKeysFromMap cfg.listNamesRemove start with
    | (some k, _) => (AnalyzeOutcome.threw k, st1)
    | (none, m1) =>
      match addTriggerLists cfg.triggerListsAdd m1 with
      | (some k, _) => (AnalyzeOutcome.threw k, st1)
      | (none, m2) =>
        let m3 := (replaceKeysFromMap cfg.alcarecoReplace m2).2
        (AnalyzeOutcome.done, { st1 with dbWrites := st1.dbWrites ++ [m3] })

/-- Run a sequence of `analyze` calls on one module instance, threading the
state. -/
def runCalls : List (UpdateConfig × TriggerMap) → ModState → ModState
  | [], st => st
  | c :: cs, st => runCalls cs (analyze c.1 c.2 st).2

/-- The in-place rename one pair performs: save the value, erase the old key,
assign the new key. -/
def renameStep (m : TriggerMap) (p : String × String) : TriggerMap :=
  tmSet (tmErase m p.1) p.2 (tmGet m p.1)

end AlCaReco

namespace HLTDEgamma

/-- One ECAL rechit: a detector id, its energy and its time. Energies and
times are the real-valued quantities the C++ holds in floating point; the
embedding uses exact rationals, which preserves every threshold comparison. -/
structure RecHit where
  id : Nat
  energy : ℚ
  time : ℚ
deriving Repr, DecidableEq

/-- Configuration of `HLTDisplacedEgammaFilter` read from the ParameterSet in
the constructor. -/
structure FilterConfig where
  ncandcut : Int
  trkPtCut : ℚ
  trkdRCut : ℚ
  maxTrkCut : Int
  EBOnly : Bool
  sMin_min : ℚ
  sMin_max : ℚ
  sMaj_min : ℚ
  sMaj_max : ℚ
  seedTimeMin : ℚ
  seedTimeMax : ℚ
deriving Repr

/-- One `reco::RecoEcalCandidate` reference from the previous filter.  `eta`
is `ref->eta()`; `sMin`/`sMaj` are the `Cluster2ndMoments` that
`EcalClusterTools::cluster2ndMoments` returns for the candidate's seed
cluster with the rechit collection the code selects by `|eta| < 1.479`
(EB, else EE); `seedHits` are the rechits of that seed cluster in the same
collection, from which the seed time is looked up. -/
structure Cand where
  eta : ℚ
  sMin : ℚ
  sMaj : ℚ
  seedHits : List RecHit
deriving Repr, DecidableEq

/-- One `reco::Track` as consulted per candidate: its `pt()` and the
`ROOT::Math::VectorUtil::DeltaR` between the track four-momentum built from
`(px, py, pz, p)` and the candidate's `p4()`.  Delta-R involves square roots
and angle wrapping, so the embedding records the already-computed distance to
each candidate through the `dR` function below. -/
structure Track where
  pt : ℚ
deriving Repr, DecidableEq

/-- The EB/EE boundary constant `1.479` of the eta comparisons. -/
def etaEB : ℚ := mkRat 1479 1000

/-- Modelled from the spec: `EcalClusterTools::getMaximum` (RecoEcal, not
under src/) returns the DetId and energy of the crystal with maximum energy
among the cluster's hits; ties keep the first maximum encountered. The seed
time is then the `time()` of the rechit found at that DetId. -/
def getMaximum : List RecHit → Option RecHit
  | [] => none
  | h :: hs =>
    match getMaximum hs with
    | none => some h
    | some m => if m.energy > h.energy then some m else some h

/-- The seed time used by the timing cut: the time of the maximum-energy
rechit of the candidate's seed cluster (`getMaximum` then `rechits->find`
then `time()`); 0 when the cluster has no hits (the C++ would dereference an
invalid iterator there, a case no claim touches). -/
def seedTime (c : Cand) : ℚ :=
  match getMaximum c.seedHits with
  | some h => h.time
  | none => 0

/-- The eta stage: `if (EBOnly && std::abs(ref->eta()) >= 1.479) continue`.
`true` means the candidate survives the stage. -/
def passEta (cfg : FilterConfig) (c : Cand) : Bool :=
  !(cfg.EBOnly && decide (|c.eta| ≥ etaEB))

/-- The sMin half of the shape stage:
`if (sMin < sMin_min || sMin > sMin_max) continue`. -/
def passSMin (cfg : FilterConfig) (c : Cand) : Bool :=
  !(decide (c.sMin < cfg.sMin_min) || decide (c.sMin > cfg.sMin_max))

/-- The sMaj half of the shape stage:
`if (sMaj < sMaj_min || sMaj > sMaj_max) continue`. -/
def passSMaj (cfg : FilterConfig) (c : Cand) : Bool :=
  !(decide (c.sMaj < cfg.sMaj_min) || decide (c.sMaj > cfg.sMaj_max))

/-- The timing stage:
`if (seedTime < seedTimeMin || seedTime > seedTimeMax) continue`. -/
def passTime (cfg : FilterConfig) (c : Cand) : Bool :=
  !(decide (seedTime c < cfg.seedTimeMin) || decide (seedTime c > cfg.seedTimeMax))

/-- The track-veto loop: `nTrk` starts at 0; a track with `pt < trkPtCut` is
skipped; otherwise `nTrk` is incremented when its Delta-R to the candidate is
below `trkdRCut`; the loop breaks as soon as `nTrk > maxTrkCut`.  Returns the
final `nTrk`.  `dR t c` is the Delta-R between track `t` and candidate `c`. -/
def trkLoop (cfg : FilterConfig) (dR : Track → Cand → ℚ) (c : Cand) :
    List Track → Int → Int
  | [], nTrk => nTrk
  | t :: ts, nTrk =>
    if t.pt < cfg.trkPtCut then
      trkLoop cfg dR c ts nTrk
    else
      let nTrk1 := if dR t c < cfg.trkdRCut then nTrk + 1 else nTrk
      if nTrk1 > cfg.maxTrkCut then nTrk1 else trkLoop cfg dR c ts nTrk1

/-- The track-veto stage: run the loop from 0 and reject when the count
exceeds `maxTrkCut` (`if (nTrk > maxTrkCut) continue`). -/
def passTrk (cfg : FilterConfig) (dR : Track → Cand → ℚ) (tracks : List Track)
    (c : Cand) : Bool :=
  !(decide (trkLoop cfg dR c tracks 0 > cfg.maxTrkCut))

/-- The full number of tracks with `pt >= trkPtCut` and Delta-R below
`trkdRCut`, with no early break (the count the claim about the veto refers
to). -/
def nTrkFull (cfg : FilterConfig) (dR : Track → Cand → ℚ) (tracks : List Track)
    (c : Cand) : Nat :=
  (tracks.filter (fun t => !(t.pt < cfg.trkPtCut) && decide (dR t c < cfg.trkdRCut))).length

/-- The body of the candidate loop of `hltFilter`: the four cut stages in
source order, each `continue` rendered as an early `false`. -/
def processCand (cfg : FilterConfig) (dR : Track → Cand → ℚ)
    (tracks : List Track) (c : Cand) : Bool :=
  if cfg.EBOnly && decide (|c.eta| ≥ etaEB) then false
  else if decide (c.sMin < cfg.sMin_min) || decide (c.sMin > cfg.sMin_max) then false
  else if decide (c.sMaj < cfg.sMaj_min) || decide (c.sMaj > cfg.sMaj_max) then false
  else if decide (seedTime c < cfg.seedTimeMin) || decide (seedTime c > cfg.seedTimeMax) then false
  else if decide (trkLoop cfg dR c tracks 0 > cfg.maxTrkCut) then false
  else true

/-- The `trigger::TriggerObjectType` values the filter uses. -/
inductive TrigType where
  | TriggerCluster : TrigType
  | TriggerPhoton : TrigType
deriving Repr, DecidableEq

/-- The event data `hltFilter` consumes: the previous filter's objects of
type `TriggerCluster` and of type `TriggerPhoton`, and the track
collection. -/
structure Event where
  clusterCands : List Cand
  photonCands : List Cand
  tracks : List Track
deriving Repr

/-- The candidate list `recoecalcands`: the `TriggerCluster` objects of the
previous filter, or, when that list is empty, its `TriggerPhoton` objects. -/
def recoecalcands (ev : Event) : List Cand :=
  if ev.clusterCands.isEmpty then ev.photonCands else ev.clusterCands

/-- The candidate loop of `hltFilter`: `n` counts passing candidates, each of
which is added to the filter product with type `TriggerCluster`. -/
def candLoop (cfg : FilterConfig) (dR : Track → Cand → ℚ) (tracks : List Track) :
    List Cand → Int → List (TrigType × Cand) → Int × List (TrigType × Cand)
  | [], n, out => (n, out)
  | c :: cs, n, out =>
    if processCand cfg dR tracks c then
      candLoop cfg dR tracks cs (n + 1) (out ++ [(TrigType.TriggerCluster, c)])
    else
      candLoop cfg dR tracks cs n out

/-- `HLTDisplacedEgammaFilter::hltFilter`: run the candidate loop over
`recoecalcands` and accept when `n >= ncandcut_`.  Returns the accept
decision and the filter product contents. -/
def hltFilter (cfg : FilterConfig) (dR : Track → Cand → ℚ) (ev : Event) :
    Bool × List (TrigType × Cand) :=
  let res := candLoop cfg dR ev.tracks (recoecalcands ev) 0 []
  (decide (res.1 ≥ cfg.ncandcut), res.2)

end HLTDEgamma

namespace MenuScript

/-- A word of the shell script: a literal string or a double-quoted variable
reference such as `"$MASTER"`. -/
inductive ShellWord where
  | lit : String → ShellWord
  | var : String → ShellWord
deriving Repr, DecidableEq

/-- A command of the shell script, as the script uses them: a plain variable
assignment to a literal, sourcing another script, or calling a function with
arguments. -/
inductive ShellCmd where
  | assign : String → String → ShellCmd
  | sourceFile : String → ShellCmd
  | call : String → List ShellWord → ShellCmd
deriving Repr, DecidableEq

/-- The menu-generation shell script (src/unnamed/part_000, lines 1-11),
command by command; comments and blank lines carry no behaviour and are
omitted. -/
def hltGenScript : List ShellCmd :=
  [ShellCmd.assign "MASTER" "/dev/CMSSW_10_1_0/HLT",
   ShellCmd.assign "TARGET" "/online/collisions/2018/2e34/v3.6/HLT",
   ShellCmd.assign "TABLES" "online_grun",
   ShellCmd.sourceFile "subtables.sh",
   ShellCmd.call "createSubtables"
     [ShellWord.lit "v3/run3", ShellWord.var "MASTER",
      ShellWord.var "TARGET", ShellWord.var "TABLES"]]

/-- The environment the script's assignments build, in order. -/
def scriptEnv : List ShellCmd → List (String × String)
  | [] => []
  | ShellCmd.assign n v :: cs => scriptEnv cs ++ [(n, v)]
  | _ :: cs => scriptEnv cs

/-- Expand a word against an environment: a literal is itself; a quoted
variable reference expands to its last assigned value (empty if unset). -/
def expandWord (env : List (String × String)) : ShellWord → String
  | ShellWord.lit s => s
  | ShellWord.var n =>
    match (env.reverse).find? (fun p => p.1 == n) with
    | some p => p.2
    | none => ""

/-- Predicate: the command is a `source` command. -/
def isSource : ShellCmd → Bool
  | ShellCmd.sourceFile _ => true
  | _ => false

/-- Predicate: the command is a function call. -/
def isCall : ShellCmd → Bool
  | ShellCmd.call _ _ => true
  | _ => false

/-- Predicate: the command is a plain literal assignment (no command
substitution, arithmetic or other computation). -/
def isPlainAssign : ShellCmd → Bool
  | ShellCmd.assign _ _ => true
  | _ => false

end MenuScript

namespace AlCaReco

theorem tmContains_tmErase (m : TriggerMap) (k k2 : String) (h : k2 ≠ k) :
    tmContains (tmErase m k) k2 = tmContains m k2 := by
  unfold tmContains tmErase
  rw [List.any_filter]
  have hf : (fun (a : String × String) => !(a.1 == k) && (a.1 == k2))
      = fun (a : String × String) => a.1 == k2 := by
    funext a
    by_cases ha : a.1 = k2
    · simp [ha, h]
    · simp [ha]
  rw [hf]

theorem removeKeysFromMap_all_present (ks : List String) :
    ∀ m : TriggerMap, ks.Nodup → (∀ k ∈ ks, tmContains m k = true) →
      removeKeysFromMap ks m = (none, m.filter (fun p => !(ks.contains p.1))) := by
  induction ks with
  | nil =>
    intro m _ _
    simp [removeKeysFromMap]
  | cons k ks ih =>
    intro m hnd hall
    have hk : tmContains m k = true := hall k (List.mem_cons_self k ks)
    have hnd2 : ks.Nodup := hnd.of_cons
    have hknot : k ∉ ks := by
      intro hmem
      exact (List.nodup_cons.mp hnd).1 hmem
    have hall2 : ∀ k2 ∈ ks, tmContains (tmErase m k) k2 = true := by
      intro k2 hk2
      have hne : k2 ≠ k := by
        intro he
        exact hknot (he ▸ hk2)
      rw [tmContains_tmErase m k k2 hne]
      exact hall k2 (List.mem_cons_of_mem k hk2)
    have hstep : removeKeysFromMap (k :: ks) m = removeKeysFromMap ks (tmErase m k) := by
      simp [removeKeysFromMap, hk]
    rw [hstep, ih (tmErase m k) hnd2 hall2]
    unfold tmErase
    rw [List.filter_filter]
    refine congrArg (Prod.mk none) ?_
    apply List.filter_congr
    intro a _
    simp [List.contains_cons, Bool.not_or, Bool.and_comm, Bool.beq_eq_decide_eq]

theorem removeKeysFromMap_thrown (ks : List String) :
    ∀ (m : TriggerMap) (k1 : String), (removeKeysFromMap ks m).1 = some k1 →
      ∃ pre post, ks = pre ++ k1 :: post ∧
        removeKeysFromMap pre m = (none, (removeKeysFromMap ks m).2) ∧
        tmContains (removeKeysFromMap ks m).2 k1 = false := by
  induction ks with
  | nil =>
    intro m k1 h
    simp [removeKeysFromMap] at h
  | cons k ks ih =>
    intro m k1 h
    by_cases hk : tmContains m k = true
    · have hstep : removeKeysFromMap (k :: ks) m = removeKeysFromMap ks (tmErase m k) := by
        simp [removeKeysFromMap, hk]
      rw [hstep] at h ⊢
      obtain ⟨pre, post, heq, hpre, hcont⟩ := ih (tmErase m k) k1 h
      refine ⟨k :: pre, post, by simp [heq], ?_, hcont⟩
      have : removeKeysFromMap (k :: pre) m = removeKeysFromMap pre (tmErase m k) := by
        simp [removeKeysFromMap, hk]
      rw [this, hpre]
    · have hkf : tmContains m k = false := by
        cases hkk : tmContains m k
        · rfl
        · exact absurd hkk hk
      have hstep : removeKeysFromMap (k :: ks) m = (some k, m) := by
        simp [removeKeysFromMap, hkf]
      rw [hstep] at h ⊢
      simp at h
      refine ⟨[], ks, by simp [h], by simp [removeKeysFromMap], ?_⟩
      simpa [h] using hkf

theorem replaceKeysFromMap_false (ps : List (String × String)) :
    ∀ m : TriggerMap, (replaceKeysFromMap ps m).1 = false →
      ∃ pre p post, ps = pre ++ p :: post ∧
        replaceKeysFromMap pre m = (true, (replaceKeysFromMap ps m).2) ∧
        (replaceKeysFromMap ps m).2 = pre.foldl renameStep m ∧
        tmContains ((replaceKeysFromMap ps m).2) p.1 = false := by
  induction ps with
  | nil =>
    intro m h
    simp [replaceKeysFromMap] at h
  | cons p ps ih =>
    intro m h
    by_cases hp : tmContains m p.1 = true
    · have hstep : replaceKeysFromMap (p :: ps) m = replaceKeysFromMap ps (renameStep m p) := by
        simp [replaceKeysFromMap, hp, renameStep]
      rw [hstep] at h ⊢
      obtain ⟨pre, q, post, heq, hpre, hfold, hcont⟩ := ih (renameStep m p) h
      refine ⟨p :: pre, q, post, by simp [heq], ?_, by simp [hfold], hcont⟩
      have : replaceKeysFromMap (p :: pre) m = replaceKeysFromMap pre (renameStep m p) := by
        simp [replaceKeysFromMap, hp, renameStep]
      rw [this, hpre]
    · have hpf : tmContains m p.1 = false := by
        cases hkk : tmContains m p.1
        · rfl
        · exact absurd hkk hp
      have hstep : replaceKeysFromMap (p :: ps) m = (false, m) := by
        simp [replaceKeysFromMap, hpf]
      rw [hstep]
      exact ⟨[], p, ps, by simp, by simp [replaceKeysFromMap], by simp, hpf⟩

theorem analyze_later (cfg : UpdateConfig) (existing : TriggerMap) (st : ModState)
    (h : st.nEventCalls ≥ 1) :
    analyze cfg existing st = (AnalyzeOutcome.earlyReturn, ⟨st.nEventCalls + 1, st.dbWrites⟩) := by
  have hpos : st.nEventCalls > 0 := h
  unfold analyze
  simp [hpos]

theorem analyze_first_threw_remove (cfg : UpdateConfig) (existing : TriggerMap)
    (st : ModState) (k : String) (m1 : TriggerMap) (hn : st.nEventCalls = 0)
    (hrem : removeKeysFromMap cfg.listNamesRemove (if cfg.startEmpty then [] else existing)
      = (some k, m1)) :
    analyze cfg existing st = (AnalyzeOutcome.threw k, ⟨1, st.dbWrites⟩) := by
  unfold analyze
  rw [hn]
  simp [hrem]

theorem analyze_first_done (cfg : UpdateConfig) (existing : TriggerMap) (st : ModState)
    (m1 m2 : TriggerMap) (hn : st.nEventCalls = 0)
    (hrem : removeKeysFromMap cfg.listNamesRemove (if cfg.startEmpty then [] else existing)
      = (none, m1))
    (hadd : addTriggerLists cfg.triggerListsAdd m1 = (none, m2)) :
    analyze cfg existing st =
      (AnalyzeOutcome.done,
       ⟨1, st.dbWrites ++ [(replaceKeysFromMap cfg.alcarecoReplace m2).2]⟩) := by
  unfold analyze
  rw [hn]
  simp [hrem, hadd]

theorem analyze_first_state (cfg : UpdateConfig) (existing : TriggerMap) (st : ModState)
    (hn : st.nEventCalls = 0) :
    (analyze cfg existing st).2.nEventCalls = 1 ∧
    (analyze cfg existing st).2.dbWrites.length ≤ st.dbWrites.length + 1 := by
  unfold analyze
  rw [hn]
  simp only [gt_iff_lt, Nat.lt_irrefl, if_false]
  split
  · simp
  · split
    · simp
    · simp

theorem runCalls_after_first (calls : List (UpdateConfig × TriggerMap)) :
    ∀ st : ModState, st.nEventCalls ≥ 1 → (runCalls calls st).dbWrites = st.dbWrites := by
  induction calls with
  | nil =>
    intro st _
    rfl
  | cons c cs ih =>
    intro st h
    simp only [runCalls]
    rw [analyze_later c.1 c.2 st h]
    exact ih ⟨st.nEventCalls + 1, st.dbWrites⟩ (Nat.le_add_left 1 st.nEventCalls)

/-- C2: On a (first) `analyze` call on which no exception is raised, the module
performs key removal, then insertion, then rename on the trigger map, in this
order — the written map is the rename applied to the insertion applied to the
removal applied to the starting map — and then makes exactly one database
write call, with that map. -/
theorem C2_analyze_order (cfg : UpdateConfig) (existing : TriggerMap) (st : ModState)
    (m1 m2 : TriggerMap) (hn : st.nEventCalls = 0)
    (hrem : removeKeysFromMap cfg.listNamesRemove (if cfg.startEmpty then [] else existing)
      = (none, m1))
    (hadd : addTriggerLists cfg.triggerListsAdd m1 = (none, m2)) :
    analyze cfg existing st =
      (AnalyzeOutcome.done,
       ⟨1, st.dbWrites ++ [(replaceKeysFromMap cfg.alcarecoReplace m2).2]⟩) ∧
    (analyze cfg existing st).2.dbWrites.length = st.dbWrites.length + 1 := by
  have h := analyze_first_done cfg existing st m1 m2 hn hrem hadd
  refine ⟨h, ?_⟩
  rw [h]
  simp

/-- C2 witness: a concrete successful first call performs the three map
stages and a single write. -/
theorem C2_analyze_order_witness :
    analyze ⟨1, -1, true, [], [⟨"k", ["p1", "p2"]⟩], []⟩ [] ⟨0, []⟩
      = (AnalyzeOutcome.done, ⟨1, [[("k", "p1;p2")]]⟩) := by
  have h := C2_analyze_order ⟨1, -1, true, [], [⟨"k", ["p1", "p2"]⟩], []⟩ [] ⟨0, []⟩
    [] [("k", "p1;p2")] rfl (by decide) (by decide)
  simpa [replaceKeysFromMap] using h.1

/-- C5 counterexample: with the key list `["a", "a"]` and the map
`[("a", "v")]`, every listed key is present in the map, yet
`removeKeysFromMap` raises the exception instead of succeeding — the claim as
stated fails for lists with repeated keys. -/
theorem C5_counterexample :
    (∀ k ∈ ["a", "a"], tmContains [("a", "v")] k = true) ∧
    removeKeysFromMap ["a", "a"] [("a", "v")] = (some "a", []) := by
  exact ⟨by decide, by decide⟩

/-- C5 (amended): when the listed keys are pairwise distinct and all present,
`removeKeysFromMap` succeeds and erases exactly the listed keys; when a key is
missing at the point it is processed, the exception carrying that key is
raised, the keys processed before it have already been erased (the map at the
throw is the result of successfully removing the preceding prefix), and the
database write in `analyze` is never reached. -/
theorem C5_remove_keys :
    (∀ (ks : List String) (m : TriggerMap), ks.Nodup →
        (∀ k ∈ ks, tmContains m k = true) →
        removeKeysFromMap ks m = (none, m.filter (fun p => !(ks.contains p.1)))) ∧
    (∀ (ks : List String) (m : TriggerMap) (k1 : String),
        (removeKeysFromMap ks m).1 = some k1 →
        ∃ pre post, ks = pre ++ k1 :: post ∧
          removeKeysFromMap pre m = (none, (removeKeysFromMap ks m).2) ∧
          tmContains (removeKeysFromMap ks m).2 k1 = false) ∧
    (∀ (cfg : UpdateConfig) (existing : TriggerMap) (st : ModState) (k : String)
        (m1 : TriggerMap), st.nEventCalls = 0 →
        removeKeysFromMap cfg.listNamesRemove (if cfg.startEmpty then [] else existing)
          = (some k, m1) →
        analyze cfg existing st = (AnalyzeOutcome.threw k, ⟨1, st.dbWrites⟩)) := by
  refine ⟨?_, ?_, ?_⟩
  · intro ks m hnd hall
    exact removeKeysFromMap_all_present ks m hnd hall
  · intro ks m k1 h
    exact removeKeysFromMap_thrown ks m k1 h
  · intro cfg existing st k m1 hn hrem
    exact analyze_first_threw_remove cfg existing st k m1 hn hrem

/-- C5 witness: concrete instances of the success part and the throw part. -/
theorem C5_remove_keys_witness :
    removeKeysFromMap ["x"] [("x", "1"), ("y", "2")] = (none, [("y", "2")]) ∧
    analyze ⟨1, -1, true, ["z"], [], []⟩ [] ⟨0, []⟩
      = (AnalyzeOutcome.threw "z", ⟨1, []⟩) := by
  constructor
  · have h := C5_remove_keys.1 ["x"] [("x", "1"), ("y", "2")] (by decide) (by decide)
    simpa using h
  · exact C5_remove_keys.2.2 ⟨1, -1, true, ["z"], [], []⟩ [] ⟨0, []⟩ "z" [] rfl (by decide)

/-- C6 counterexample: with the replace pairs `[("a", "b"), ("b", "c")]` and
the map `[("a", "v")]`, the configured oldKey `"b"` is absent from the trigger
map, yet `replaceKeysFromMap` returns `true` (renaming the first pair makes
`"b"` present by the time its pair is processed) — the claim as stated fails. -/
theorem C6_counterexample :
    ("b", "c") ∈ [("a", "b"), ("b", "c")] ∧
    tmContains [("a", "v")] "b" = false ∧
    replaceKeysFromMap [("a", "b"), ("b", "c")] [("a", "v")] = (true, [("c", "v")]) := by
  exact ⟨by decide, by decide, by decide⟩

/-- C6 (amended): when some oldKey is absent from the map at the point its
pair is processed, `replaceKeysFromMap` returns `false` (logging, not
throwing), stopping at the first such pair with all preceding pairs already
renamed; and because `analyze` ignores the returned value, the database write
is still performed with the partially renamed map. -/
theorem C6_replace_keys :
    (∀ (ps : List (String × String)) (m : TriggerMap),
        (replaceKeysFromMap ps m).1 = false →
        ∃ pre p post, ps = pre ++ p :: post ∧
          replaceKeysFromMap pre m = (true, (replaceKeysFromMap ps m).2) ∧
          (replaceKeysFromMap ps m).2 = pre.foldl renameStep m ∧
          tmContains ((replaceKeysFromMap ps m).2) p.1 = false) ∧
    (∀ (cfg : UpdateConfig) (existing : TriggerMap) (st : ModState) (m1 m2 : TriggerMap),
        st.nEventCalls = 0 →
        removeKeysFromMap cfg.listNamesRemove (if cfg.startEmpty then [] else existing)
          = (none, m1) →
        addTriggerLists cfg.triggerListsAdd m1 = (none, m2) →
        (replaceKeysFromMap cfg.alcarecoReplace m2).1 = false →
        analyze cfg existing st =
          (AnalyzeOutcome.done,
           ⟨1, st.dbWrites ++ [(replaceKeysFromMap cfg.alcarecoReplace m2).2]⟩)) := by
  constructor
  · intro ps m h
    exact replaceKeysFromMap_false ps m h
  · intro cfg existing st m1 m2 hn hrem hadd _
    exact analyze_first_done cfg existing st m1 m2 hn hrem hadd

/-- C6 witness: a concrete first call whose rename stage fails on a missing
oldKey still ends in the database write, with the map untouched by the failed
rename. -/
theorem C6_replace_keys_witness :
    analyze ⟨1, -1, true, [], [], [("u", "w")]⟩ [] ⟨0, []⟩
      = (AnalyzeOutcome.done, ⟨1, [[]]⟩) := by
  have h := C6_replace_keys.2 ⟨1, -1, true, [], [], [("u", "w")]⟩ [] ⟨0, []⟩ [] []
    rfl (by decide) (by decide) (by decide)
  simpa [replaceKeysFromMap, tmContains] using h

/-- C9: across every sequence of `analyze` calls on one module instance the
database write happens at most once: any call after the first only increments
the counter and returns (leaving the write history untouched), and any run
starting from a fresh instance ends with at most one recorded write. -/
theorem C9_write_once :
    (∀ (cfg : UpdateConfig) (existing : TriggerMap) (st : ModState),
        st.nEventCalls ≥ 1 →
        analyze cfg existing st
          = (AnalyzeOutcome.earlyReturn, ⟨st.nEventCalls + 1, st.dbWrites⟩)) ∧
    (∀ calls : List (UpdateConfig × TriggerMap),
        (runCalls calls ⟨0, []⟩).dbWrites.length ≤ 1) := by
  constructor
  · intro cfg existing st h
    exact analyze_later cfg existing st h
  · intro calls
    cases calls with
    | nil => simp [runCalls]
    | cons c cs =>
      simp only [runCalls]
      have h := analyze_first_state c.1 c.2 ⟨0, []⟩ rfl
      have h2 := runCalls_after_first cs (analyze c.1 c.2 ⟨0, []⟩).2
        (le_of_eq h.1.symm)
      rw [h2]
      simpa using h.2

/-- C9 witness: a second call on a concrete instance returns early without
writing. -/
theorem C9_write_once_witness :
    analyze ⟨1, -1, true, [], [], []⟩ [] ⟨1, []⟩
      = (AnalyzeOutcome.earlyReturn, ⟨2, []⟩) :=
  C9_write_once.1 ⟨1, -1, true, [], [], []⟩ [] ⟨1, []⟩ (by decide)

end AlCaReco
namespace HLTDEgamma

theorem processCand_eq_stages (cfg : FilterConfig) (dR : Track → Cand → ℚ)
    (tracks : List Track) (c : Cand) :
    processCand cfg dR tracks c =
      (passEta cfg c && passSMin cfg c && passSMaj cfg c &&
       passTime cfg c && passTrk cfg dR tracks c) := by
  unfold processCand passEta passSMin passSMaj passTime passTrk
  cases h1 : cfg.EBOnly && decide (|c.eta| ≥ etaEB) <;>
    cases h2 : decide (c.sMin < cfg.sMin_min) || decide (c.sMin > cfg.sMin_max) <;>
      cases h3 : decide (c.sMaj < cfg.sMaj_min) || decide (c.sMaj > cfg.sMaj_max) <;>
        cases h4 : decide (seedTime c < cfg.seedTimeMin)
            || decide (seedTime c > cfg.seedTimeMax) <;>
          cases h5 : decide (trkLoop cfg dR c tracks 0 > cfg.maxTrkCut) <;>
            simp [h1, h2, h3, h4, h5]

theorem trkLoop_gt_iff (cfg : FilterConfig) (dR : Track → Cand → ℚ) (c : Cand) :
    ∀ (ts : List Track) (n : Int),
      (trkLoop cfg dR c ts n > cfg.maxTrkCut ↔
        n + (nTrkFull cfg dR ts c : Int) > cfg.maxTrkCut) := by
  intro ts
  induction ts with
  | nil =>
    intro n
    simp [trkLoop, nTrkFull]
  | cons t ts ih =>
    intro n
    by_cases hpt : t.pt < cfg.trkPtCut
    · have hfilter : nTrkFull cfg dR (t :: ts) c = nTrkFull cfg dR ts c := by
        simp [nTrkFull, List.filter_cons, hpt]
      rw [hfilter]
      simpa [trkLoop, hpt] using ih n
    · by_cases hdr : dR t c < cfg.trkdRCut
      · have hfilter : nTrkFull cfg dR (t :: ts) c = nTrkFull cfg dR ts c + 1 := by
          simp [nTrkFull, List.filter_cons, hpt, hdr, Nat.add_comm]
        rw [hfilter]
        by_cases hbr : n + 1 > cfg.maxTrkCut
        · have hloop : trkLoop cfg dR c (t :: ts) n = n + 1 := by
            simp [trkLoop, hpt, hdr, hbr]
          rw [hloop]
          constructor
          · intro _
            have : (0 : Int) ≤ (nTrkFull cfg dR ts c : Int) := Int.natCast_nonneg _
            omega
          · intro _
            exact hbr
        · have hloop : trkLoop cfg dR c (t :: ts) n = trkLoop cfg dR c ts (n + 1) := by
            simp [trkLoop, hpt, hdr, hbr]
          rw [hloop, ih (n + 1)]
          constructor <;> intro h <;> omega
      · have hfilter : nTrkFull cfg dR (t :: ts) c = nTrkFull cfg dR ts c := by
          simp [nTrkFull, List.filter_cons, hpt, hdr]
        rw [hfilter]
        by_cases hbr : n > cfg.maxTrkCut
        · have hloop : trkLoop cfg dR c (t :: ts) n = n := by
            simp [trkLoop, hpt, hdr, hbr]
          rw [hloop]
          constructor
          · intro _
            have : (0 : Int) ≤ (nTrkFull cfg dR ts c : Int) := Int.natCast_nonneg _
            omega
          · intro _
            exact hbr
        · have hloop : trkLoop cfg dR c (t :: ts) n = trkLoop cfg dR c ts n := by
            simp [trkLoop, hpt, hdr, hbr]
          rw [hloop]
          exact ih n

theorem candLoop_spec (cfg : FilterConfig) (dR : Track → Cand → ℚ) (tracks : List Track) :
    ∀ (cs : List Cand) (n : Int) (out : List (TrigType × Cand)),
      candLoop cfg dR tracks cs n out =
        (n + ((cs.filter (processCand cfg dR tracks)).length : Int),
         out ++ (cs.filter (processCand cfg dR tracks)).map
           (fun c => (TrigType.TriggerCluster, c))) := by
  intro cs
  induction cs with
  | nil =>
    intro n out
    simp [candLoop]
  | cons c cs ih =>
    intro n out
    by_cases h : processCand cfg dR tracks c = true
    · rw [candLoop, if_pos h, ih (n + 1), List.filter_cons_of_pos h]
      simp only [List.length_cons, List.map_cons, Prod.mk.injEq]
      constructor
      · push_cast
        ring
      · simp
    · have hf : processCand cfg dR tracks c = false := by
        cases hh : processCand cfg dR tracks c
        · rfl
        · exact absurd hh h
      rw [candLoop, if_neg h, ih n, List.filter_cons_of_neg h]

theorem hltFilter_spec (cfg : FilterConfig) (dR : Track → Cand → ℚ) (ev : Event) :
    hltFilter cfg dR ev =
      (decide ((((recoecalcands ev).filter (processCand cfg dR ev.tracks)).length : Int)
          ≥ cfg.ncandcut),
       ((recoecalcands ev).filter (processCand cfg dR ev.tracks)).map
         (fun c => (TrigType.TriggerCluster, c))) := by
  unfold hltFilter
  rw [candLoop_spec]
  simp

theorem getMaximum_spec (hits : List RecHit) :
    ∀ h : RecHit, getMaximum hits = some h →
      h ∈ hits ∧ ∀ h2 ∈ hits, h2.energy ≤ h.energy := by
  induction hits with
  | nil =>
    intro h hh
    simp [getMaximum] at hh
  | cons a hs ih =>
    intro h hh
    rw [getMaximum] at hh
    cases hm : getMaximum hs with
    | none =>
      rw [hm] at hh
      simp at hh
      subst hh
      refine ⟨List.mem_cons_self a hs, ?_⟩
      intro h2 hh2
      rcases List.mem_cons.mp hh2 with rfl | hh2
      · exact le_refl _
      · cases hs with
        | nil => simp at hh2
        | cons b bs =>
          rw [getMaximum] at hm
          cases hmm : getMaximum bs with
          | none => rw [hmm] at hm; simp at hm
          | some m =>
            rw [hmm] at hm
            by_cases hgt : m.energy > b.energy
            · simp [hgt] at hm
            · simp [hgt] at hm
    | some m =>
      rw [hm] at hh
      obtain ⟨hmem, hmax⟩ := ih m hm
      by_cases hgt : m.energy > a.energy
      · simp [hgt] at hh
        subst hh
        refine ⟨List.mem_cons_of_mem a hmem, ?_⟩
        intro h2 hh2
        rcases List.mem_cons.mp hh2 with rfl | hh2
        · exact le_of_lt hgt
        · exact hmax h2 hh2
      · simp [hgt] at hh
        subst hh
        refine ⟨List.mem_cons_self a hs, ?_⟩
        intro h2 hh2
        rcases List.mem_cons.mp hh2 with rfl | hh2
        · exact le_refl _
        · exact le_trans (hmax h2 hh2) (not_lt.mp hgt)

/-- C1: in `hltFilter` the cuts run per candidate in the source order eta
range, shape (the sMin window then the sMaj window), seed timing, track veto;
a candidate failing a stage is skipped with the later stages not consulted
(the outcome does not depend on any data only a later stage reads), and a
candidate is added to the filter product exactly when it passes all four
stages. -/
theorem C1_cut_order (cfg : FilterConfig) (dR : Track → Cand → ℚ) (ev : Event) :
    (∀ c : Cand, (TrigType.TriggerCluster, c) ∈ (hltFilter cfg dR ev).2 ↔
      (c ∈ recoecalcands ev ∧ passEta cfg c = true ∧ passSMin cfg c = true ∧
       passSMaj cfg c = true ∧ passTime cfg c = true ∧
       passTrk cfg dR ev.tracks c = true)) ∧
    (∀ (c : Cand) (s1 s2 : ℚ) (hits : List RecHit) (dR2 : Track → Cand → ℚ)
        (tracks2 : List Track), passEta cfg c = false →
      processCand cfg dR2 tracks2 ⟨c.eta, s1, s2, hits⟩ = false) ∧
    (∀ (c : Cand) (hits : List RecHit) (dR2 : Track → Cand → ℚ)
        (tracks2 : List Track), passSMin cfg c = false ∨ passSMaj cfg c = false →
      processCand cfg dR2 tracks2 ⟨c.eta, c.sMin, c.sMaj, hits⟩ = false) ∧
    (∀ (c : Cand) (dR2 : Track → Cand → ℚ) (tracks2 : List Track),
      passTime cfg c = false → processCand cfg dR2 tracks2 c = false) ∧
    (∀ c : Cand, passSMin cfg c = true ↔
      (cfg.sMin_min ≤ c.sMin ∧ c.sMin ≤ cfg.sMin_max)) ∧
    (∀ c : Cand, passSMaj cfg c = true ↔
      (cfg.sMaj_min ≤ c.sMaj ∧ c.sMaj ≤ cfg.sMaj_max)) := by
  refine ⟨?_, ?_, ?_, ?_, ?_, ?_⟩
  · intro c
    rw [hltFilter_spec]
    constructor
    · intro hmem
      obtain ⟨a, ha, heq⟩ := List.mem_map.mp hmem
      obtain ⟨hin, hproc⟩ := List.mem_filter.mp ha
      have hac : a = c := congrArg Prod.snd heq
      subst hac
      rw [processCand_eq_stages] at hproc
      simp only [Bool.and_eq_true] at hproc
      exact ⟨hin, hproc.1.1.1.1, hproc.1.1.1.2, hproc.1.1.2, hproc.1.2, hproc.2⟩
    · rintro ⟨hmem, he, hsm, hsj, ht, hk⟩
      apply List.mem_map.mpr
      refine ⟨c, List.mem_filter.mpr ⟨hmem, ?_⟩, rfl⟩
      rw [processCand_eq_stages, he, hsm, hsj, ht, hk]
      rfl
  · intro c s1 s2 hits dR2 tracks2 h
    have heb : cfg.EBOnly = true ∧ |c.eta| ≥ etaEB := by
      unfold passEta at h
      simpa using h
    unfold processCand
    simp [heb.1, heb.2]
  · intro c hits dR2 tracks2 h
    rw [processCand_eq_stages]
    rcases h with h | h
    · have hm : passSMin cfg ⟨c.eta, c.sMin, c.sMaj, hits⟩ = false := by
        unfold passSMin at h ⊢
        exact h
      simp [hm]
    · have hm : passSMaj cfg ⟨c.eta, c.sMin, c.sMaj, hits⟩ = false := by
        unfold passSMaj at h ⊢
        exact h
      simp [hm]
  · intro c dR2 tracks2 h
    rw [processCand_eq_stages, h]
    simp
  · intro c
    unfold passSMin
    simp [not_lt]
  · intro c
    unfold passSMaj
    simp [not_lt]

/-- C1 witness: a concrete candidate failing the eta stage is rejected no
matter what shape, timing and track data it carries. -/
theorem C1_cut_order_witness :
    processCand ⟨1, 3, mkRat 1 2, 0, true, mkRat 1 10, mkRat 2 5, 0, 999, -25, 25⟩
      (fun _ _ => 1) [] ⟨2, 0, 0, []⟩ = false :=
  (C1_cut_order ⟨1, 3, mkRat 1 2, 0, true, mkRat 1 10, mkRat 2 5, 0, 999, -25, 25⟩
    (fun _ _ => 1) ⟨[], [], []⟩).2.1 ⟨2, 5, 5, []⟩ 0 0 [] (fun _ _ => 1) [] (by decide)

/-- C3: the filter accepts exactly when the number of candidates passing all
cuts reaches `ncandcut_`; every passing candidate is added to the product
with type `TriggerCluster` (also when the candidates came from the
`TriggerPhoton` list); and the `TriggerPhoton` list is consulted only when
the `TriggerCluster` list is empty. -/
theorem C3_accept_iff (cfg : FilterConfig) (dR : Track → Cand → ℚ) (ev : Event) :
    ((hltFilter cfg dR ev).1 = true ↔
      (((recoecalcands ev).filter (fun c => passEta cfg c && passSMin cfg c &&
          passSMaj cfg c && passTime cfg c && passTrk cfg dR ev.tracks c)).length : Int)
        ≥ cfg.ncandcut) ∧
    ((hltFilter cfg dR ev).2 =
      ((recoecalcands ev).filter (fun c => passEta cfg c && passSMin cfg c &&
          passSMaj cfg c && passTime cfg c && passTrk cfg dR ev.tracks c)).map
        (fun c => (TrigType.TriggerCluster, c))) ∧
    (ev.clusterCands = [] → recoecalcands ev = ev.photonCands) ∧
    (ev.clusterCands ≠ [] → recoecalcands ev = ev.clusterCands) := by
  have hfun : (fun c => passEta cfg c && passSMin cfg c && passSMaj cfg c &&
      passTime cfg c && passTrk cfg dR ev.tracks c) = processCand cfg dR ev.tracks := by
    funext c
    exact (processCand_eq_stages cfg dR ev.tracks c).symm
  rw [hfun]
  refine ⟨?_, ?_, ?_, ?_⟩
  · rw [hltFilter_spec]
    simp
  · rw [hltFilter_spec]
  · intro h
    unfold recoecalcands
    simp [h]
  · intro h
    unfold recoecalcands
    simp [h]

/-- C3 witness: with an empty `TriggerCluster` list the `TriggerPhoton` list
is the one processed. -/
theorem C3_accept_iff_witness :
    recoecalcands ⟨[], [⟨0, 0, 0, []⟩], []⟩ = [⟨0, 0, 0, []⟩] :=
  (C3_accept_iff ⟨1, 3, mkRat 1 2, 0, true, mkRat 1 10, mkRat 2 5, 0, 999, -25, 25⟩
    (fun _ _ => 1) ⟨[], [⟨0, 0, 0, []⟩], []⟩).2.2.1 rfl

/-- C4: the eta stage rejects exactly the candidates outside the configured
range (all of eta is allowed unless `EBOnly` is set, in which case the range
is `|eta| < 1.479`), and a candidate outside the range never reaches the
filter product, whatever the other configuration parameters are. -/
theorem C4_eta_cut (cfg : FilterConfig) (dR : Track → Cand → ℚ) (ev : Event) (c : Cand)
    (hEB : cfg.EBOnly = true) (heta : |c.eta| ≥ etaEB) :
    (∀ p ∈ (hltFilter cfg dR ev).2, p.2 ≠ c) ∧
    (∀ c2 : Cand, passEta cfg c2 = false ↔ (cfg.EBOnly = true ∧ |c2.eta| ≥ etaEB)) := by
  have hchar : ∀ c2 : Cand, passEta cfg c2 = false ↔ (cfg.EBOnly = true ∧ |c2.eta| ≥ etaEB) := by
    intro c2
    unfold passEta
    simp
  refine ⟨?_, hchar⟩
  intro p hp hc
  rw [hltFilter_spec] at hp
  simp only [List.mem_map, List.mem_filter] at hp
  obtain ⟨a, ⟨_, hproc⟩, hpa⟩ := hp
  have ha : a = c := by
    rw [← hpa] at hc
    exact hc
  rw [processCand_eq_stages] at hproc
  simp only [Bool.and_eq_true] at hproc
  have hpass : passEta cfg c = true := ha ▸ hproc.1.1.1.1
  have hfail : passEta cfg c = false := (hchar c).mpr ⟨hEB, heta⟩
  rw [hpass] at hfail
  simp at hfail

/-- C4 witness: in a concrete event with `EBOnly` set, the candidate at
`|eta| = 2` is kept out of the product while a barrel candidate passes. -/
theorem C4_eta_cut_witness :
    (⟨1, mkRat 1 4, mkRat 1 4, [⟨5, 10, 0⟩]⟩ : Cand)
      ≠ (⟨2, mkRat 1 4, mkRat 1 4, []⟩ : Cand) :=
  (C4_eta_cut ⟨1, 3, mkRat 1 2, 0, true, mkRat 1 10, mkRat 2 5, 0, 999, -25, 25⟩
    (fun _ _ => 1)
    ⟨[⟨1, mkRat 1 4, mkRat 1 4, [⟨5, 10, 0⟩]⟩, ⟨2, mkRat 1 4, mkRat 1 4, []⟩], [], []⟩
    ⟨2, mkRat 1 4, mkRat 1 4, []⟩ rfl (by decide)).1
    (TrigType.TriggerCluster, ⟨1, mkRat 1 4, mkRat 1 4, [⟨5, 10, 0⟩]⟩) (by decide)

/-- C7: for a candidate that reaches the timing cut (eta and shape passed),
the decision reduces to the timing and track stages; the timing stage passes
iff `seedTimeMin ≤ t ≤ seedTimeMax`, where `t` is the time of the rechit at
the maximum-energy crystal of the candidate's seed cluster. -/
theorem C7_seed_time (cfg : FilterConfig) (dR : Track → Cand → ℚ)
    (tracks : List Track) (c : Cand)
    (h1 : passEta cfg c = true) (h2 : passSMin cfg c = true)
    (h3 : passSMaj cfg c = true) :
    (processCand cfg dR tracks c = true ↔
      (passTime cfg c = true ∧ passTrk cfg dR tracks c = true)) ∧
    (passTime cfg c = true ↔
      (cfg.seedTimeMin ≤ seedTime c ∧ seedTime c ≤ cfg.seedTimeMax)) ∧
    (∀ h : RecHit, getMaximum c.seedHits = some h →
      h ∈ c.seedHits ∧ (∀ h2 ∈ c.seedHits, h2.energy ≤ h.energy) ∧
      seedTime c = h.time) := by
  refine ⟨?_, ?_, ?_⟩
  · rw [processCand_eq_stages, h1, h2, h3]
    simp
  · unfold passTime
    simp [not_lt]
  · intro h hh
    obtain ⟨hmem, hmax⟩ := getMaximum_spec c.seedHits h hh
    refine ⟨hmem, hmax, ?_⟩
    unfold seedTime
    rw [hh]

/-- C7 witness: a concrete candidate whose maximum-energy seed rechit has
time 0 passes a timing window of [-25, 25]. -/
theorem C7_seed_time_witness :
    passTime ⟨1, 3, mkRat 1 2, 0, true, mkRat 1 10, mkRat 2 5, 0, 999, -25, 25⟩
      ⟨1, mkRat 1 4, mkRat 1 4, [⟨5, 10, 0⟩]⟩ = true :=
  ((C7_seed_time ⟨1, 3, mkRat 1 2, 0, true, mkRat 1 10, mkRat 2 5, 0, 999, -25, 25⟩
    (fun _ _ => 1) [] ⟨1, mkRat 1 4, mkRat 1 4, [⟨5, 10, 0⟩]⟩
    (by decide) (by decide) (by decide)).2.1).mpr (by decide)

/-- C8: for a candidate that reaches the track veto, the candidate is
rejected iff the number of tracks with `pt ≥ trkPtCut` and Delta-R to the
candidate below `trkdRCut` exceeds `maxTrkCut`; the early-breaking loop
reaches the same decision as the full count. -/
theorem C8_track_veto (cfg : FilterConfig) (dR : Track → Cand → ℚ)
    (tracks : List Track) (c : Cand)
    (h1 : passEta cfg c = true) (h2 : passSMin cfg c = true)
    (h3 : passSMaj cfg c = true) (h4 : passTime cfg c = true) :
    (processCand cfg dR tracks c = false ↔
      (nTrkFull cfg dR tracks c : Int) > cfg.maxTrkCut) ∧
    (trkLoop cfg dR c tracks 0 > cfg.maxTrkCut ↔
      (nTrkFull cfg dR tracks c : Int) > cfg.maxTrkCut) := by
  have hloop := trkLoop_gt_iff cfg dR c tracks 0
  rw [zero_add] at hloop
  refine ⟨?_, hloop⟩
  rw [processCand_eq_stages, h1, h2, h3, h4]
  simp [passTrk, hloop]

/-- C8 witness: one close high-pt track rejects a candidate when
`maxTrackCut` is 0. -/
theorem C8_track_veto_witness :
    processCand ⟨1, 3, mkRat 1 2, 0, true, mkRat 1 10, mkRat 2 5, 0, 999, -25, 25⟩
      (fun _ _ => 0) [⟨4⟩] ⟨1, mkRat 1 4, mkRat 1 4, [⟨5, 10, 0⟩]⟩ = false :=
  ((C8_track_veto ⟨1, 3, mkRat 1 2, 0, true, mkRat 1 10, mkRat 2 5, 0, 999, -25, 25⟩
    (fun _ _ => 0) [⟨4⟩] ⟨1, mkRat 1 4, mkRat 1 4, [⟨5, 10, 0⟩]⟩
    (by decide) (by decide) (by decide) (by decide)).1).mpr (by decide)

end HLTDEgamma
namespace MenuScript

/-- C10: the menu-generation script consists only of plain literal
assignments, exactly one source command — of subtables.sh — and exactly one
function call — of createSubtables — with the source preceding the call; the
call passes four string parameters, which expand to the menu name literal and
the three assigned configuration strings. -/
theorem C10_script_glue :
    hltGenScript.filter isSource = [ShellCmd.sourceFile "subtables.sh"] ∧
    hltGenScript.filter isCall =
      [ShellCmd.call "createSubtables"
        [ShellWord.lit "v3/run3", ShellWord.var "MASTER",
         ShellWord.var "TARGET", ShellWord.var "TABLES"]] ∧
    hltGenScript.all (fun c => isSource c || isCall c || isPlainAssign c) = true ∧
    hltGenScript.indexOf (ShellCmd.sourceFile "subtables.sh") <
      hltGenScript.indexOf (ShellCmd.call "createSubtables"
        [ShellWord.lit "v3/run3", ShellWord.var "MASTER",
         ShellWord.var "TARGET", ShellWord.var "TABLES"]) ∧
    ([ShellWord.lit "v3/run3", ShellWord.var "MASTER",
      ShellWord.var "TARGET", ShellWord.var "TABLES"].map
        (expandWord (scriptEnv hltGenScript))) =
      ["v3/run3", "/dev/CMSSW_10_1_0/HLT",
       "/online/collisions/2018/2e34/v3.6/HLT", "online_grun"] ∧
    ([ShellWord.lit "v3/run3", ShellWord.var "MASTER",
      ShellWord.var "TARGET", ShellWord.var "TABLES"] : List ShellWord).length = 4 := by
  exact ⟨by decide, by decide, by decide, by decide, by decide, by decide⟩

end MenuScript

